import Mathlib

/-!
Verification of the block-based document model of the Go-Notion repository.

The definitions below are a shallow embedding of the block service
(src/unnamed/part_000: createBlock, insertBlock, removeBlock, moveBlock,
updateBlock, getBlockIndex, blocksToHtml, htmlToBlocks) and of the block
editor controller (BlockEditor in src/components/NotebookList.tsx:
handleUpdateBlock, handleDeleteBlock, handleDuplicateBlock).

Modelling conventions:
- JavaScript objects that may lack fields are modelled with Option.  A Block
  whose id, type and content are all none models the object produced by
  spreading the undefined value, which the source can create when
  Array.prototype.splice is called with an out-of-range start index
  (moveBlock with fromIndex at or past the end destructures undefined from an
  empty splice result and re-inserts it).
- Array.prototype.splice index normalisation is modelled by spliceStart:
  a negative start counts from the end of the array and is clamped below at
  zero, a non-negative start is clamped above at the length.
- metadata is an association list of key/value pairs modelling a plain
  JavaScript object; object spread is modelled by spreadMerge.
- The identifier generator (crypto.randomUUID) is an external collaborator
  and is modelled by passing the freshly generated identifier (or a stream
  of identifiers) as an explicit argument.
- Array.prototype.sort with the comparator (a, b) => a.order - b.order is a
  stable sort by the order field; it is modelled by List.insertionSort with
  the corresponding non-strict relation, which is stable in the same sense.
- DOMParser is a browser API, not repository code; htmlToBlocks is modelled
  on the list of top-level DOM nodes that the parser returns (text nodes,
  element nodes with a tag name and inner markup, and other nodes such as
  comments, which the source skips).
-/

namespace Blocks

/-- BlockType, the closed enumeration of block variants (src/BLOCKS_SYSTEM.md). -/
inductive BlockType where
  | paragraph
  | heading1
  | heading2
  | heading3
  | task
  | bulletList
  | numberedList
  | quote
  | code
  | divider
  | image
  | link
  | event
  | table
  | linkedNote
deriving DecidableEq

/-- Values stored in the open metadata map of a block. -/
inductive MVal where
  | bool (b : Bool)
  | str (s : String)
  | int (n : Int)
deriving DecidableEq

/-- JavaScript truthiness of a metadata value. -/
def truthy : MVal → Bool
  | .bool b => b
  | .str s => decide (s ≠ "")
  | .int n => decide (n ≠ 0)

/-- JavaScript truthiness of a possibly undefined value. -/
def truthyO : Option MVal → Bool
  | none => false
  | some v => truthy v

/-- The metadata map of a block, modelled as an association list of its own
enumerable properties in insertion order. -/
abbrev Metadata := List (String × MVal)

/-- Property lookup on a metadata object. -/
def metaLookup (m : Metadata) (k : String) : Option MVal :=
  (m.find? (fun p => p.1 == k)).map (fun p => p.2)

/-- Object spread of two metadata objects.  The result has the keys of old
first (with values overridden by new where present) followed by the keys
that occur only in new, exactly as in a JavaScript object literal that
spreads old and then new. -/
def spreadMerge (old new : Metadata) : Metadata :=
  old.map (fun p =>
    match metaLookup new p.1 with
    | some v => (p.1, v)
    | none => p)
  ++ new.filter (fun q => (metaLookup old q.1).isNone)

/-- First defined alternative, the semantics of looking a key up in a merged
object: the new map wins, the old map is the fallback. -/
def pick (a b : Option MVal) : Option MVal :=
  match a with
  | some v => some v
  | none => b

/-- Block, the atomic content unit (src/BLOCKS_SYSTEM.md).  Fields are
Option-typed because a JavaScript object can lack them: htmlToBlocks pushes
blocks without a metadata property, and spreading undefined (see moveBlock)
yields an object with only an order property. -/
structure Block where
  id : Option String
  type : Option BlockType
  content : Option String
  order : Int
  metadata : Option Metadata
deriving DecidableEq

/-- The object spread expression with an order override that every sequence
operation ends with; spreading undefined yields an object whose only
property is order. -/
def jsSpreadOrder (ob : Option Block) (i : Int) : Block :=
  match ob with
  | some b => { b with order := i }
  | none => { id := none, type := none, content := none, order := i, metadata := none }

/-- The trailing map of the sequence operations, assigning order := index,
starting from index k (source: .map((b, i) => (\x7b ...b, order: i \x7d))). -/
def renumberJs (k : Int) : List (Option Block) → List Block
  | [] => []
  | ob :: rest => jsSpreadOrder ob k :: renumberJs (k + 1) rest

/-- Renumbering of a list of defined blocks. -/
def renumber (blocks : List Block) : List Block :=
  renumberJs 0 (blocks.map some)

/-- Array.prototype.splice index normalisation: a negative index counts from
the end (clamped below at zero), a non-negative index is clamped at the
length. -/
def spliceStart (len : Nat) (i : Int) : Nat :=
  if i < 0 then ((len : Int) + i).toNat else min i.toNat len

/-- createBlock (src/unnamed/part_000).  The generated identifier is passed
explicitly; the source gives content the default value of the empty
string, modelled by passing the empty string at such call sites. -/
def createBlock (newId : String) (type : BlockType) (content : String) : Block :=
  { id := some newId
    type := some type
    content := some content
    order := 0
    metadata := some [] }

/-- insertBlock (src/unnamed/part_000): splice the block in at the
normalised index with order set to the raw index, then renumber. -/
def insertBlock (blocks : List Block) (index : Int) (block : Block) : List Block :=
  let s := spliceStart blocks.length index
  renumber (blocks.take s ++ [{ block with order := index }] ++ blocks.drop s)

/-- removeBlock (src/unnamed/part_000): filter the id out, then renumber. -/
def removeBlock (blocks : List Block) (blockId : String) : List Block :=
  renumber (blocks.filter (fun b => b.id != some blockId))

/-- moveBlock (src/unnamed/part_000): splice one element out at fromIndex,
splice it back in at toIndex, then renumber.  When the normalised fromIndex
is at the end, the splice removes nothing and the source destructures
undefined, which is then re-inserted: the element is none. -/
def moveBlock (blocks : List Block) (fromIndex toIndex : Int) : List Block :=
  let s := spliceStart blocks.length fromIndex
  let movedBlock : Option Block := blocks[s]?
  let rest := blocks.take s ++ blocks.drop (s + 1)
  let t := spliceStart rest.length toIndex
  renumberJs 0 ((rest.take t).map some ++ movedBlock :: (rest.drop t).map some)

/-- A partial block update (TypeScript Partial of Block): each field is
present in the patch object or absent from it. -/
structure BlockPatch where
  id : Option (Option String)
  type : Option (Option BlockType)
  content : Option (Option String)
  order : Option Int
  metadata : Option (Option Metadata)
deriving DecidableEq

/-- The object spread of a block with a partial update: fields present in
the patch replace the corresponding block field wholesale. -/
def applyPatch (b : Block) (u : BlockPatch) : Block :=
  { id := u.id.getD b.id
    type := u.type.getD b.type
    content := u.content.getD b.content
    order := u.order.getD b.order
    metadata := u.metadata.getD b.metadata }

/-- updateBlock (src/unnamed/part_000): map over the sequence, spreading
the updates over the block whose id matches. -/
def updateBlock (blocks : List Block) (blockId : String) (updates : BlockPatch) : List Block :=
  blocks.map (fun b => if b.id == some blockId then applyPatch b updates else b)

/-- getBlockIndex (src/unnamed/part_000): Array.prototype.findIndex, which
returns the index of the first block whose id matches and -1 when no
element matches. -/
def getBlockIndex (blocks : List Block) (blockId : String) : Int :=
  ((blocks.findIdx? (fun b => b.id == some blockId)).map Int.ofNat).getD (-1)

/-- handleUpdateBlock (BlockEditor in src/components/NotebookList.tsx): map
over the sequence, replacing content and merging the metadata patch over
the existing metadata with an object spread.  Spreading undefined
contributes no keys, so both the existing metadata and the patch default to
the empty object. -/
def handleUpdateBlock (blocks : List Block) (blockId : String) (content : String)
    (metadata : Option Metadata) : List Block :=
  blocks.map (fun b =>
    if b.id == some blockId then
      { b with
        content := some content
        metadata := some (spreadMerge (b.metadata.getD []) (metadata.getD [])) }
    else b)

/-- handleDeleteBlock (BlockEditor in src/components/NotebookList.tsx): on a
one-element sequence the matching block has its content cleared; otherwise
the block is filtered out (without renumbering). -/
def handleDeleteBlock (blocks : List Block) (blockId : String) : List Block :=
  if blocks.length = 1 then
    blocks.map (fun b => if b.id == some blockId then { b with content := some "" } else b)
  else
    blocks.filter (fun b => b.id != some blockId)

/-- handleDuplicateBlock (BlockEditor in src/components/NotebookList.tsx):
find the block by id (-1 aborts), clone it with a fresh identifier, splice
the clone in immediately after the original and renumber every block.  The
fresh identifier from the external generator is passed explicitly.  The
inner match on the indexed element is total in Lean; findIdx? only returns
indices inside the list, so the none branch is unreachable. -/
def handleDuplicateBlock (blocks : List Block) (blockId : String) (newId : String) :
    List Block :=
  match blocks.findIdx? (fun b => b.id == some blockId) with
  | none => blocks
  | some blockIndex =>
    match blocks[blockIndex]? with
    | none => blocks
    | some blockToDuplicate =>
      let newBlock : Block :=
        { blockToDuplicate with id := some newId, order := (blockIndex : Int) + 1 }
      renumber (blocks.take (blockIndex + 1) ++ [newBlock] ++ blocks.drop (blockIndex + 1))

/-- JavaScript String.prototype.trim: strip whitespace from both ends
(written over the character list so that it evaluates by kernel
reduction). -/
def jsTrim (s : String) : String :=
  String.mk ((s.data.dropWhile Char.isWhitespace).reverse.dropWhile Char.isWhitespace).reverse

/-- JavaScript String.prototype.toLowerCase, written over the character
list so that it evaluates by kernel reduction. -/
def jsToLower (s : String) : String :=
  String.mk (s.data.map Char.toLower)

/-- Template-literal coercion of a possibly undefined string. -/
def jsStr (o : Option String) : String := o.getD "undefined"

/-- The per-type switch of blocksToHtml (src/unnamed/part_000).  The default
branch returns the raw content value, which may be undefined: the result is
an Option because Array.prototype.join renders undefined as the empty
string. -/
def renderBlock (block : Block) : Option String :=
  match block.type with
  | some .paragraph => some ("<p>" ++ jsStr block.content ++ "</p>")
  | some .heading1 => some ("<h1>" ++ jsStr block.content ++ "</h1>")
  | some .heading2 => some ("<h2>" ++ jsStr block.content ++ "</h2>")
  | some .heading3 => some ("<h3>" ++ jsStr block.content ++ "</h3>")
  | some .bulletList => some ("<ul><li>" ++ jsStr block.content ++ "</li></ul>")
  | some .numberedList => some ("<ol><li>" ++ jsStr block.content ++ "</li></ol>")
  | some .quote => some ("<blockquote>" ++ jsStr block.content ++ "</blockquote>")
  | some .code => some ("<pre><code>" ++ jsStr block.content ++ "</code></pre>")
  | some .divider => some "<hr />"
  | some .task =>
    some ("<li data-type=\"taskItem\" data-checked=\""
      ++ (if truthyO (block.metadata.bind (fun m => metaLookup m "checked"))
          then "true" else "false")
      ++ "\">" ++ jsStr block.content ++ "</li>")
  | _ => block.content

/-- Array.prototype.join with the empty separator; undefined elements
become the empty string. -/
def jsJoin (l : List (Option String)) : String :=
  String.join (l.map (fun o => o.getD ""))

/-- The stable sort by the order field performed by blocksToHtml
(Array.prototype.sort with comparator (a, b) => a.order - b.order). -/
def sortByOrder (blocks : List Block) : List Block :=
  List.insertionSort (fun a b => a.order ≤ b.order) blocks

/-- blocksToHtml (src/unnamed/part_000): sort by order, render each block,
join the fragments with no separator. -/
def blocksToHtml (blocks : List Block) : String :=
  jsJoin ((sortByOrder blocks).map renderBlock)

/-- A top-level DOM node as produced by DOMParser on the input markup. -/
inductive DomNode where
  | text (textContent : String)
  | element (tagName : String) (innerHTML : String)
  | other
deriving DecidableEq

/-- The tag-name switch of htmlToBlocks: the type starts as paragraph and
is reassigned for the eight recognised tags (compared lowercased). -/
def tagToType (tagName : String) : BlockType :=
  match jsToLower tagName with
  | "h1" => .heading1
  | "h2" => .heading2
  | "h3" => .heading3
  | "blockquote" => .quote
  | "pre" => .code
  | "hr" => .divider
  | "ul" => .bulletList
  | "ol" => .numberedList
  | _ => .paragraph

/-- The loop body of htmlToBlocks (src/unnamed/part_000), carrying the
running order counter.  Text nodes whose trimmed content is non-empty
become paragraph blocks holding the raw text; element nodes become blocks
typed by their tag with the inner markup as content; other nodes are
skipped.  Pushed blocks have no metadata property.  The identifier
generator is modelled by indexing an external stream with the number of
identifiers drawn so far, which equals the order counter because both
advance exactly once per pushed block. -/
def htmlToBlocksGo (gen : Nat → String) (order : Nat) : List DomNode → List Block
  | [] => []
  | .text s :: rest =>
    if jsTrim s ≠ "" then
      { id := some (gen order)
        type := some .paragraph
        content := some s
        order := (order : Int)
        metadata := none } :: htmlToBlocksGo gen (order + 1) rest
    else
      htmlToBlocksGo gen order rest
  | .element tagName innerHTML :: rest =>
    { id := some (gen order)
      type := some (tagToType tagName)
      content := some innerHTML
      order := (order : Int)
      metadata := none } :: htmlToBlocksGo gen (order + 1) rest
  | .other :: rest => htmlToBlocksGo gen order rest

/-- htmlToBlocks (src/unnamed/part_000), over the parsed top-level nodes. -/
def htmlToBlocks (gen : Nat → String) (nodes : List DomNode) : List Block :=
  htmlToBlocksGo gen 0 nodes

/-- One mutation of the sequence-operation layer. -/
inductive EditOp where
  | insert (index : Int) (b : Block)
  | remove (blockId : String)
  | move (fromIndex toIndex : Int)

/-- Apply one sequence operation. -/
def applyOp (blocks : List Block) : EditOp → List Block
  | .insert i b => insertBlock blocks i b
  | .remove blockId => removeBlock blocks blockId
  | .move f t => moveBlock blocks f t

/-- Apply a composition of sequence operations, first operation first. -/
def applyOps (blocks : List Block) (ops : List EditOp) : List Block :=
  ops.foldl applyOp blocks

/-- The order invariant: every block's order field equals its array index. -/
def Ordered (blocks : List Block) : Prop :=
  ∀ (i : Nat) (b : Block), blocks[i]? = some b → b.order = (i : Int)

/-- The contiguous integers 0 .. n-1, as order values. -/
def intRange (n : Nat) : List Int :=
  (List.range n).map Int.ofNat

/-- Everything of a block except its order field. -/
def stripOrder (b : Block) : Option String × Option BlockType × Option String × Option Metadata :=
  (b.id, b.type, b.content, b.metadata)

/-- stripOrder through the spread-with-order expression. -/
def stripO (ob : Option Block) :
    Option String × Option BlockType × Option String × Option Metadata :=
  match ob with
  | some b => stripOrder b
  | none => (none, none, none, none)

/-- Example block with id a at order 0, used in concrete scenarios. -/
def exA : Block := ⟨some "a", some .paragraph, some "A", 0, some []⟩

/-- Example block with id b at order 1. -/
def exB : Block := ⟨some "b", some .paragraph, some "B", 1, some []⟩

/-- Example block with id c at order 2. -/
def exC : Block := ⟨some "c", some .paragraph, some "C", 2, some []⟩

/-- Example block with id d and a stale order value. -/
def exD : Block := ⟨some "d", some .paragraph, some "D", 7, some []⟩

/-- Example block sharing the id a with exA. -/
def exA2 : Block := ⟨some "a", some .code, some "A2", 5, some []⟩

/-- The empty partial update. -/
def exPatchEmpty : BlockPatch := ⟨none, none, none, none, none⟩

/-- A block with one metadata key a, target of the metadata-merge scenario. -/
def c3Block : Block := ⟨some "x", some .task, some "t", 0, some [("a", MVal.bool true)]⟩

/-- A partial update carrying only a metadata object with the single key b. -/
def c3Patch : BlockPatch := ⟨none, none, none, none, some (some [("b", MVal.bool true)])⟩

/-- The single paragraph block of the markup round-trip scenario; htmlToBlocks
produces blocks without a metadata property, hence none. -/
def pHello : Block := ⟨some "a", some .paragraph, some "Hello", 0, none⟩

/-- The task block of the task-rendering scenario. -/
def taskMilk : Block := ⟨some "t", some .task, some "Buy milk", 0, some [("checked", MVal.bool true)]⟩

/-- A constant identifier stream for concrete conversion scenarios. -/
def c8gen : Nat → String := fun _ => "g"

/-- Concrete top-level nodes for the conversion scenario. -/
def c8nodes : List DomNode := [DomNode.element "h1" "T", DomNode.text "x"]

/-- The second block htmlToBlocks produces from c8nodes. -/
def c8blk : Block := ⟨some "g", some .paragraph, some "x", 1, none⟩

instance : DecidableRel (fun a b : Block => a.order ≤ b.order) :=
  fun a b => inferInstanceAs (Decidable (a.order ≤ b.order))

instance : IsTotal Block (fun a b : Block => a.order ≤ b.order) :=
  ⟨fun a b => Int.le_total a.order b.order⟩

instance : IsTrans Block (fun a b : Block => a.order ≤ b.order) :=
  ⟨fun _ _ _ h1 h2 => le_trans h1 h2⟩

instance : IsAntisymm Block (fun a b : Block => a.order < b.order ∨ a = b) :=
  ⟨fun a b hab hba => by
    rcases hab with h1 | h1
    · rcases hba with h2 | h2
      · exact absurd h2 (not_lt.mpr (le_of_lt h1))
      · exact h2.symm
    · exact h1⟩

/-! Helper lemmas about the renumbering map. -/

theorem jsSpreadOrder_order (ob : Option Block) (i : Int) : (jsSpreadOrder ob i).order = i := by
  cases ob <;> rfl

theorem renumberJs_length (k : Int) (L : List (Option Block)) :
    (renumberJs k L).length = L.length := by
  induction L generalizing k with
  | nil => rfl
  | cons ob rest ih => simp [renumberJs, ih]

theorem renumberJs_getElem? (k : Int) (L : List (Option Block)) (j : Nat) :
    (renumberJs k L)[j]? = L[j]?.map (fun ob => jsSpreadOrder ob (k + j)) := by
  induction L generalizing k j with
  | nil => simp [renumberJs]
  | cons ob rest ih =>
    cases j with
    | zero => simp [renumberJs]
    | succ j =>
      have hcast : k + 1 + (j : Int) = k + ((j + 1 : Nat) : Int) := by push_cast; ring
      simp only [renumberJs, List.getElem?_cons_succ, ih (k + 1) j, hcast]

theorem ordered_renumberJs (L : List (Option Block)) : Ordered (renumberJs 0 L) := by
  intro i b h
  rw [renumberJs_getElem?] at h
  cases hL : L[i]? with
  | none => rw [hL, Option.map_none'] at h; exact Option.noConfusion h
  | some ob =>
    rw [hL] at h
    simp only [Option.map_some'] at h
    rw [← Option.some_inj.mp h, jsSpreadOrder_order]
    omega

theorem ordered_map_order (blocks : List Block) (h : Ordered blocks) :
    blocks.map Block.order = intRange blocks.length := by
  apply List.ext_getElem?
  intro i
  by_cases hi : i < blocks.length
  · have hb : blocks[i]? = some blocks[i] := List.getElem?_eq_getElem hi
    rw [List.getElem?_map, hb, intRange, List.getElem?_map, List.getElem?_range hi]
    simp [h i blocks[i] hb, Int.ofNat_eq_coe]
  · have h1 : blocks[i]? = none := List.getElem?_eq_none (le_of_not_lt hi)
    have h2 : (List.range blocks.length)[i]? = none := by
      apply List.getElem?_eq_none
      simpa using le_of_not_lt hi
    rw [List.getElem?_map, h1, intRange, List.getElem?_map, h2]
    rfl

theorem ordered_iff_map_order (blocks : List Block) :
    Ordered blocks ↔ blocks.map Block.order = intRange blocks.length := by
  constructor
  · exact ordered_map_order blocks
  · intro h i b hb
    have hi : i < blocks.length := by
      rcases List.getElem?_eq_some.mp hb with ⟨hi, _⟩
      exact hi
    have h1 : (blocks.map Block.order)[i]? = some b.order := by
      rw [List.getElem?_map, hb]; rfl
    rw [h, intRange, List.getElem?_map, List.getElem?_range hi] at h1
    simpa using h1.symm

theorem ordered_applyOp (blocks : List Block) (op : EditOp) : Ordered (applyOp blocks op) := by
  cases op with
  | insert i b => exact ordered_renumberJs _
  | remove blockId => exact ordered_renumberJs _
  | move f t => exact ordered_renumberJs _

/-- Claim C1: every composition of insertBlock, removeBlock and moveBlock applied
to a valid sequence yields a sequence in which each block's order equals its
index, and the order values are exactly 0 .. len-1.  The proof needs no
in-range assumption on moveBlock: every operation ends with the renumbering
map, which restores the invariant unconditionally. -/
theorem c1_order_invariant (blocks : List Block) (ops : List EditOp) (h : Ordered blocks) :
    Ordered (applyOps blocks ops) ∧
    (applyOps blocks ops).map Block.order = intRange (applyOps blocks ops).length := by
  have hord : Ordered (applyOps blocks ops) := by
    induction ops generalizing blocks with
    | nil => exact h
    | cons op ops ih => exact ih (applyOp blocks op) (ordered_applyOp blocks op)
  exact ⟨hord, ordered_map_order _ hord⟩

/-- Witness for C1 at a concrete composition of all three operations. -/
theorem c1_witness :
    Ordered (applyOps [exA, exB]
      [EditOp.insert 1 exD, EditOp.move 0 2, EditOp.remove "b"]) ∧
    (applyOps [exA, exB]
      [EditOp.insert 1 exD, EditOp.move 0 2, EditOp.remove "b"]).map Block.order
      = intRange (applyOps [exA, exB]
          [EditOp.insert 1 exD, EditOp.move 0 2, EditOp.remove "b"]).length :=
  c1_order_invariant [exA, exB]
    [EditOp.insert 1 exD, EditOp.move 0 2, EditOp.remove "b"]
    ((ordered_iff_map_order [exA, exB]).mpr (by decide))

/-- Claim C2: deleting the sole block of a one-element sequence clears its
content and keeps the block (same id, type, metadata and order); the result
still has length one. -/
theorem c2_delete_sole_block (b : Block) (x : String) (hid : b.id = some x) :
    handleDeleteBlock [b] x = [{ b with content := some "" }] ∧
    (handleDeleteBlock [b] x).length = 1 := by
  have h : handleDeleteBlock [b] x = [{ b with content := some "" }] := by
    simp [handleDeleteBlock, hid]
  exact ⟨h, by rw [h]; rfl⟩

/-- Witness for C2 on the concrete singleton sequence. -/
theorem c2_witness :
    handleDeleteBlock [exA] "a" = [{ exA with content := some "" }] ∧
    (handleDeleteBlock [exA] "a").length = 1 :=
  c2_delete_sole_block exA "a" rfl

/-- Claim C9: operations that target an absent block id are no-ops that never
throw: removeBlock returns the same blocks renumbered, updateBlock and
handleDuplicateBlock return the sequence unchanged. -/
theorem c9_absent_id_noops (blocks : List Block) (x : String) (u : BlockPatch) (nid : String)
    (h : ∀ b ∈ blocks, b.id ≠ some x) :
    removeBlock blocks x = renumber blocks ∧
    updateBlock blocks x u = blocks ∧
    handleDuplicateBlock blocks x nid = blocks := by
  refine ⟨?_, ?_, ?_⟩
  · unfold removeBlock
    congr 1
    rw [List.filter_eq_self]
    intro b hb
    simpa using h b hb
  · unfold updateBlock
    have heq : ∀ b ∈ blocks, (if b.id == some x then applyPatch b u else b) = b := by
      intro b hb
      rw [if_neg]
      simp [h b hb]
    rw [List.map_congr_left heq]
    simp
  · unfold handleDuplicateBlock
    have hfind : blocks.findIdx? (fun b => b.id == some x) = none := by
      rw [List.findIdx?_eq_none_iff]
      intro b hb
      simp [h b hb]
    rw [hfind]

/-- Witness for C9 with an id absent from a concrete two-block sequence. -/
theorem c9_witness :
    removeBlock [exA, exB] "zz" = renumber [exA, exB] ∧
    updateBlock [exA, exB] "zz" exPatchEmpty = [exA, exB] ∧
    handleDuplicateBlock [exA, exB] "zz" "n" = [exA, exB] :=
  c9_absent_id_noops [exA, exB] "zz" exPatchEmpty "n" (by decide)

/-- Claim C10: insertBlock overwrites the order field of the inserted block,
so the result does not depend on it; createBlock returns order 0, empty
metadata and, with the default argument (the empty string), empty content. -/
theorem c10_insert_ignores_order :
    (∀ (blocks : List Block) (i : Int) (b : Block) (k : Int),
        insertBlock blocks i { b with order := k } = insertBlock blocks i b) ∧
    (∀ (newId : String) (t : BlockType) (c : String),
        (createBlock newId t c).order = 0 ∧ (createBlock newId t c).metadata = some []) ∧
    (∀ (newId : String) (t : BlockType), (createBlock newId t "").content = some "") :=
  ⟨fun _ _ _ _ => rfl, fun _ _ _ => ⟨rfl, rfl⟩, fun _ _ => rfl⟩

/-! Helper lemmas about metadata lookup and object spread. -/

theorem metaLookup_cons (p : String × MVal) (m : Metadata) (k : String) :
    metaLookup (p :: m) k = if p.1 = k then some p.2 else metaLookup m k := by
  by_cases hp : p.1 = k <;> simp [metaLookup, List.find?_cons, hp]

theorem metaLookup_append (a b : Metadata) (k : String) :
    metaLookup (a ++ b) k = pick (metaLookup a k) (metaLookup b k) := by
  induction a with
  | nil => simp [metaLookup, pick]
  | cons p a ih =>
    rw [List.cons_append, metaLookup_cons, metaLookup_cons]
    by_cases hp : p.1 = k
    · rw [if_pos hp, if_pos hp]; rfl
    · rw [if_neg hp, if_neg hp, ih]

theorem metaLookup_map_repl (old new : Metadata) (k : String) :
    metaLookup (old.map (fun p =>
      match metaLookup new p.1 with
      | some v => (p.1, v)
      | none => p)) k
    = (metaLookup old k).map (fun v => (metaLookup new k).getD v) := by
  induction old with
  | nil => simp [metaLookup]
  | cons p old ih =>
    have h1 : (match metaLookup new p.1 with
        | some v => (p.1, v)
        | none => p).1 = p.1 := by
      cases metaLookup new p.1 <;> rfl
    have h2 : (match metaLookup new p.1 with
        | some v => (p.1, v)
        | none => p).2 = (metaLookup new p.1).getD p.2 := by
      cases metaLookup new p.1 <;> rfl
    rw [List.map_cons, metaLookup_cons, metaLookup_cons, h1, h2]
    by_cases hp : p.1 = k
    · rw [if_pos hp, if_pos hp, hp]; rfl
    · rw [if_neg hp, if_neg hp, ih]

theorem metaLookup_filter_of_absent (old new : Metadata) (k : String)
    (hk : metaLookup old k = none) :
    metaLookup (new.filter (fun q => (metaLookup old q.1).isNone)) k = metaLookup new k := by
  induction new with
  | nil => rfl
  | cons q new ih =>
    by_cases hq : q.1 = k
    · have hg : ((metaLookup old q.1).isNone = true) := by rw [hq, hk]; rfl
      rw [List.filter_cons, if_pos hg, metaLookup_cons, metaLookup_cons,
        if_pos hq, if_pos hq]
    · cases hg : (metaLookup old q.1).isNone with
      | true =>
        rw [List.filter_cons, if_pos hg, metaLookup_cons, metaLookup_cons,
          if_neg hq, if_neg hq, ih]
      | false =>
        rw [List.filter_cons, if_neg (by simp [hg]), metaLookup_cons, if_neg hq, ih]

theorem metaLookup_spreadMerge (old new : Metadata) (k : String) :
    metaLookup (spreadMerge old new) k = pick (metaLookup new k) (metaLookup old k) := by
  unfold spreadMerge
  rw [metaLookup_append, metaLookup_map_repl]
  cases ho : metaLookup old k with
  | some v =>
    simp only [Option.map_some']
    cases hn : metaLookup new k <;> simp [pick]
  | none =>
    simp only [Option.map_none']
    rw [show (pick none (metaLookup (new.filter
      (fun q => (metaLookup old q.1).isNone)) k)) = metaLookup (new.filter
      (fun q => (metaLookup old q.1).isNone)) k from rfl]
    rw [metaLookup_filter_of_absent old new k ho]
    cases hn : metaLookup new k <;> simp [pick]

/-- Counterexample to claim C3: the sequence-level updateBlock spreads the
partial update at the block level, so a metadata object in the update
replaces the whole metadata map instead of being shallow-merged into it.
Here the block carries metadata key a, the update carries key b, and key a
is lost, while a shallow merge would retain it. -/
theorem c3_counterexample :
    (updateBlock [c3Block] "x" c3Patch).map Block.metadata = [some [("b", MVal.bool true)]] ∧
    metaLookup [("b", MVal.bool true)] "a" = none ∧
    metaLookup (spreadMerge [("a", MVal.bool true)] [("b", MVal.bool true)]) "a"
      = some (MVal.bool true) := by decide

/-- Claim C3 as amended: the editor-level handleUpdateBlock shallow-merges the
metadata patch into the matching block's existing metadata (new keys overlay,
unmentioned keys are retained), while the sequence-level updateBlock spreads
the partial update at the block-field level, so an update that carries a
metadata map replaces the block's metadata map wholesale. -/
theorem c3_metadata_merge (blocks : List Block) (blockId : String) :
    (∀ (content : String) (m : Option Metadata) (i : Nat) (b0 : Block),
        blocks[i]? = some b0 → b0.id = some blockId →
        (handleUpdateBlock blocks blockId content m)[i]?
          = some { b0 with
              content := some content
              metadata := some (spreadMerge (b0.metadata.getD []) (m.getD [])) }) ∧
    (∀ (old new : Metadata) (k : String),
        metaLookup (spreadMerge old new) k = pick (metaLookup new k) (metaLookup old k)) ∧
    (∀ (u : BlockPatch) (mm : Option Metadata) (i : Nat) (b0 : Block),
        blocks[i]? = some b0 → b0.id = some blockId → u.metadata = some mm →
        ∃ b, (updateBlock blocks blockId u)[i]? = some b ∧ b.metadata = mm) := by
  refine ⟨?_, fun old new k => metaLookup_spreadMerge old new k, ?_⟩
  · intro content m i b0 hb0 hid
    unfold handleUpdateBlock
    rw [List.getElem?_map, hb0, Option.map_some']
    rw [if_pos (by simp [hid])]
  · intro u mm i b0 hb0 hid hm
    refine ⟨applyPatch b0 u, ?_, ?_⟩
    · unfold updateBlock
      rw [List.getElem?_map, hb0, Option.map_some']
      rw [if_pos (by simp [hid])]
    · unfold applyPatch
      rw [hm]
      rfl

/-- Witness for the amended C3 on concrete inputs. -/
theorem c3_witness :
    (handleUpdateBlock [c3Block] "x" "t2" (some [("b", MVal.bool true)]))[0]?
      = some { c3Block with
          content := some "t2"
          metadata := some (spreadMerge (c3Block.metadata.getD [])
            ((some [("b", MVal.bool true)] : Option Metadata).getD [])) } ∧
    metaLookup (spreadMerge [("a", MVal.bool true)] [("b", MVal.bool true)]) "a"
      = pick (metaLookup [("b", MVal.bool true)] "a")
          (metaLookup [("a", MVal.bool true)] "a") ∧
    (∃ b, (updateBlock [c3Block] "x" c3Patch)[0]? = some b ∧
      b.metadata = some [("b", MVal.bool true)]) :=
  ⟨(c3_metadata_merge [c3Block] "x").1 "t2" (some [("b", MVal.bool true)]) 0 c3Block rfl rfl,
   (c3_metadata_merge [c3Block] "x").2.1 [("a", MVal.bool true)] [("b", MVal.bool true)] "a",
   (c3_metadata_merge [c3Block] "x").2.2 c3Patch (some [("b", MVal.bool true)]) 0 c3Block
     rfl rfl rfl⟩

/-! Helper lemmas about splicing, lookup by id, and permutations. -/

theorem take_left_of_length {α : Type} (l1 l2 : List α) (n : Nat) (h : l1.length = n) :
    (l1 ++ l2).take n = l1 := by
  subst h; exact List.take_left l1 l2

theorem drop_left_of_length {α : Type} (l1 l2 : List α) (n : Nat) (h : l1.length = n) :
    (l1 ++ l2).drop n = l2 := by
  subst h; exact List.drop_left l1 l2

theorem findIdx?_renumberJs_fresh (cid : String) (c : Block) (hc : c.id = some cid) :
    ∀ (pre : List Block) (suf : List (Option Block)) (k : Int) (j : Nat),
      (∀ b ∈ pre, b.id ≠ some cid) →
      List.findIdx? (fun b => b.id == some cid)
        (renumberJs k (pre.map some ++ some c :: suf)) j = some (j + pre.length) := by
  intro pre
  induction pre with
  | nil =>
    intro suf k j _
    simp only [List.map_nil, List.nil_append, renumberJs]
    rw [List.findIdx?_cons, if_pos (by simp [jsSpreadOrder, hc])]
    simp
  | cons p pre ih =>
    intro suf k j hfresh
    simp only [List.map_cons, List.cons_append, renumberJs]
    rw [List.findIdx?_cons,
      if_neg (by simp [jsSpreadOrder, hfresh p (List.mem_cons_self p pre)])]
    simp only [List.append_eq]
    rw [ih suf (k + 1) (j + 1) (fun b hb => hfresh b (List.mem_cons_of_mem p hb))]
    simp only [List.length_cons]
    congr 1
    omega

theorem stripOrder_jsSpreadOrder (ob : Option Block) (k : Int) :
    stripOrder (jsSpreadOrder ob k) = stripO ob := by
  cases ob <;> rfl

theorem renumberJs_map_stripOrder (k : Int) (L : List (Option Block)) :
    (renumberJs k L).map stripOrder = L.map stripO := by
  induction L generalizing k with
  | nil => rfl
  | cons ob rest ih =>
    simp only [renumberJs, List.map_cons, ih, stripOrder_jsSpreadOrder]

theorem renumber_insert_perm (rest : List Block) (m : Block) (j : Nat) :
    ((renumberJs 0 ((rest.take j).map some ++ some m :: (rest.drop j).map some)).map
      stripOrder).Perm ((m :: rest).map stripOrder) := by
  rw [renumberJs_map_stripOrder]
  have hco : (stripO ∘ (some : Block → Option Block)) = stripOrder := funext fun b => rfl
  rw [List.map_append, List.map_cons, List.map_map, List.map_map, hco]
  refine (List.perm_middle).trans ?_
  rw [← List.map_append, List.take_append_drop, List.map_cons]
  exact List.Perm.refl _

theorem cons_removed_perm (blocks : List Block) (n : Nat) (hn : n < blocks.length) :
    ((blocks[n] :: (blocks.take n ++ blocks.drop (n + 1))).map stripOrder).Perm
      (blocks.map stripOrder) := by
  conv_rhs => rw [← List.take_append_drop n blocks, List.drop_eq_getElem_cons hn]
  rw [List.map_append, List.map_cons, List.map_cons, List.map_append]
  exact (List.perm_middle).symm

theorem spliceStart_lt (len : Nat) (f : Int) (hf0 : 0 ≤ f) (hf : f < (len : Int)) :
    spliceStart len f < len := by
  unfold spliceStart
  rw [if_neg (not_lt.mpr hf0)]
  omega

theorem moveBlock_strip_perm (blocks : List Block) (f t : Int)
    (hf0 : 0 ≤ f) (hf : f < (blocks.length : Int)) :
    ((moveBlock blocks f t).map stripOrder).Perm (blocks.map stripOrder) := by
  have hn : spliceStart blocks.length f < blocks.length := spliceStart_lt _ f hf0 hf
  have e1 : moveBlock blocks f t = renumberJs 0
      ((((blocks.take (spliceStart blocks.length f)
          ++ blocks.drop (spliceStart blocks.length f + 1)).take
          (spliceStart (blocks.take (spliceStart blocks.length f)
            ++ blocks.drop (spliceStart blocks.length f + 1)).length t)).map some)
        ++ blocks[spliceStart blocks.length f]?
          :: ((blocks.take (spliceStart blocks.length f)
          ++ blocks.drop (spliceStart blocks.length f + 1)).drop
          (spliceStart (blocks.take (spliceStart blocks.length f)
            ++ blocks.drop (spliceStart blocks.length f + 1)).length t)).map some) := rfl
  rw [e1, List.getElem?_eq_getElem hn]
  exact (renumber_insert_perm _ _ _).trans (cons_removed_perm blocks _ hn)

theorem renumberJs_eq_self (blocks : List Block) :
    ∀ (k : Int), (∀ (i : Nat) (b : Block), blocks[i]? = some b → b.order = k + i) →
    renumberJs k (blocks.map some) = blocks := by
  induction blocks with
  | nil => intro k _; rfl
  | cons b rest ih =>
    intro k h
    have hb : b.order = k := by simpa using h 0 b (by simp)
    simp only [List.map_cons, renumberJs]
    have hhead : jsSpreadOrder (some b) k = b := by
      show ({ b with order := k } : Block) = b
      rw [← hb]
    rw [hhead]
    congr 1
    apply ih (k + 1)
    intro i bb hbb
    have hstep := h (i + 1) bb (by simpa using hbb)
    rw [hstep]
    push_cast
    ring

theorem renumber_eq_self (blocks : List Block) (h : Ordered blocks) :
    renumber blocks = blocks :=
  renumberJs_eq_self blocks 0 (fun i b hb => by rw [h i b hb]; omega)

theorem getBlockIndex_insertBlock (blocks : List Block) (i : Int) (b : Block) (cid : String)
    (hi : 0 ≤ i) (hb : b.id = some cid) (hfresh : ∀ b0 ∈ blocks, b0.id ≠ some cid) :
    getBlockIndex (insertBlock blocks i b) cid = min i (blocks.length : Int) := by
  have e0 : insertBlock blocks i b = renumberJs 0
      ((blocks.take (spliceStart blocks.length i)
        ++ [{ b with order := i }]
        ++ blocks.drop (spliceStart blocks.length i)).map some) := rfl
  have e1 : insertBlock blocks i b = renumberJs 0
      ((blocks.take (spliceStart blocks.length i)).map some
        ++ some { b with order := i }
          :: (blocks.drop (spliceStart blocks.length i)).map some) := by
    rw [e0, List.map_append, List.map_append, List.append_assoc]
    rfl
  have e2 : (insertBlock blocks i b).findIdx? (fun bb => bb.id == some cid)
      = some (0 + (blocks.take (spliceStart blocks.length i)).length) := by
    rw [e1]
    exact findIdx?_renumberJs_fresh cid { b with order := i } hb
      (blocks.take (spliceStart blocks.length i))
      ((blocks.drop (spliceStart blocks.length i)).map some) 0 0
      (fun b0 hb0 => hfresh b0 (List.take_subset _ _ hb0))
  unfold getBlockIndex
  rw [e2]
  simp only [Option.map_some', Option.getD_some, List.length_take, Int.ofNat_eq_coe]
  unfold spliceStart
  rw [if_neg (not_lt.mpr hi)]
  omega

theorem moveBlock_self (blocks : List Block) (i : Int)
    (hord : Ordered blocks) (hi0 : 0 ≤ i) (hi : i < (blocks.length : Int)) :
    moveBlock blocks i i = blocks := by
  have hsn : spliceStart blocks.length i = i.toNat := by
    unfold spliceStart
    rw [if_neg (not_lt.mpr hi0)]
    omega
  have hn : i.toNat < blocks.length := by omega
  have hlen1 : (blocks.take i.toNat).length = i.toNat := by
    rw [List.length_take]
    omega
  have ht : spliceStart (blocks.take i.toNat ++ blocks.drop (i.toNat + 1)).length i
      = i.toNat := by
    rw [List.length_append, List.length_take, List.length_drop]
    unfold spliceStart
    rw [if_neg (not_lt.mpr hi0)]
    omega
  have e1 : moveBlock blocks i i = renumberJs 0
      ((((blocks.take (spliceStart blocks.length i)
          ++ blocks.drop (spliceStart blocks.length i + 1)).take
          (spliceStart (blocks.take (spliceStart blocks.length i)
            ++ blocks.drop (spliceStart blocks.length i + 1)).length i)).map some)
        ++ blocks[spliceStart blocks.length i]?
          :: ((blocks.take (spliceStart blocks.length i)
          ++ blocks.drop (spliceStart blocks.length i + 1)).drop
          (spliceStart (blocks.take (spliceStart blocks.length i)
            ++ blocks.drop (spliceStart blocks.length i + 1)).length i)).map some) := rfl
  rw [e1, hsn, ht, take_left_of_length _ _ _ hlen1, drop_left_of_length _ _ _ hlen1,
    List.getElem?_eq_getElem hn]
  have e2 : blocks.map some = (blocks.take i.toNat).map some
      ++ some blocks[i.toNat] :: (blocks.drop (i.toNat + 1)).map some := by
    conv_lhs => rw [← List.take_append_drop i.toNat blocks, List.drop_eq_getElem_cons hn]
    rw [List.map_append, List.map_cons]
  rw [← e2]
  exact renumberJs_eq_self blocks 0 (fun j bb hbb => by rw [hord j bb hbb]; omega)

/-- Counterexample to claim C4.  First, out-of-range indices are not clamped
to the nearest valid bound: inserting at index -1 into a two-block sequence
places the block at index 1 (the splice counts negative indices from the
end), so the stated equation index = min(i, len) fails at i = -1.  Second,
the equation also fails for non-negative i when the inserted id already
occurs earlier, because findIndex returns the first match.  Third, moveBlock
with fromIndex past the end neither clamps nor leaves the sequence
unchanged: it grows the sequence by a degenerate element whose id (and every
field except order) is undefined. -/
theorem c4_counterexample :
    (getBlockIndex (insertBlock [exA, exB] (-1) exD) "d" = 1 ∧
      min (-1 : Int) (([exA, exB] : List Block).length : Int) = -1) ∧
    (getBlockIndex (insertBlock [exA] 1 exA2) "a" = 0 ∧
      min (1 : Int) (([exA] : List Block).length : Int) = 1) ∧
    (moveBlock [exA, exB] 5 0).map Block.id = [none, some "a", some "b"] := by decide

/-- Claim C4 as amended: insertBlock and moveBlock are total (never throw).
For a non-negative index i and a block whose id is not already present,
getBlockIndex after insertBlock equals min(i, len).  moveBlock with an
in-range fromIndex and an arbitrary toIndex (clamped by the splice) yields a
sequence with the same blocks up to order (a permutation of the id, type,
content and metadata tuples) and with the order invariant restored.
Negative indices follow the splice convention (offset from the end, clamped
below at zero) instead of clamping to the nearest bound, and a fromIndex at
or past the end inserts a degenerate element, as the counterexample shows. -/
theorem c4_index_normalisation :
    (∀ (blocks : List Block) (i : Int) (b : Block) (cid : String),
        0 ≤ i → b.id = some cid → (∀ b0 ∈ blocks, b0.id ≠ some cid) →
        getBlockIndex (insertBlock blocks i b) cid = min i (blocks.length : Int)) ∧
    (∀ (blocks : List Block) (f t : Int),
        0 ≤ f → f < (blocks.length : Int) →
        ((moveBlock blocks f t).map stripOrder).Perm (blocks.map stripOrder) ∧
        Ordered (moveBlock blocks f t)) :=
  ⟨fun blocks i b cid hi hb hfresh => getBlockIndex_insertBlock blocks i b cid hi hb hfresh,
   fun blocks f t hf0 hf => ⟨moveBlock_strip_perm blocks f t hf0 hf, ordered_renumberJs _⟩⟩

/-- Witness for the amended C4 at concrete inputs. -/
theorem c4_witness :
    getBlockIndex (insertBlock [exA, exB] 1 exD) "d"
      = min (1 : Int) (([exA, exB] : List Block).length : Int) ∧
    (((moveBlock [exA, exB, exC] 0 5).map stripOrder).Perm
      ([exA, exB, exC].map stripOrder) ∧
      Ordered (moveBlock [exA, exB, exC] 0 5)) :=
  ⟨c4_index_normalisation.1 [exA, exB] 1 exD "d" (by decide) rfl (by decide),
   c4_index_normalisation.2 [exA, exB, exC] 0 5 (by decide) (by decide)⟩

/-- Claim C5: moveBlock with valid indices permutes the block set (same ids
and the same multiset of type, content and metadata; only order and
position change); moving a block onto its own index is a no-op on a valid
sequence; and the concrete three-block drag from index 0 to index 2 yields
B, C, A with orders 0, 1, 2. -/
theorem c5_move_is_permutation :
    (∀ (blocks : List Block) (i j : Int),
        0 ≤ i → i < (blocks.length : Int) → 0 ≤ j → j < (blocks.length : Int) →
        ((moveBlock blocks i j).map stripOrder).Perm (blocks.map stripOrder)) ∧
    (∀ (blocks : List Block) (i : Int),
        Ordered blocks → 0 ≤ i → i < (blocks.length : Int) →
        moveBlock blocks i i = blocks) ∧
    moveBlock [exA, exB, exC] 0 2
      = [{ exB with order := 0 }, { exC with order := 1 }, { exA with order := 2 }] :=
  ⟨fun blocks i j hi0 hi _ _ => moveBlock_strip_perm blocks i j hi0 hi,
   fun blocks i hord hi0 hi => moveBlock_self blocks i hord hi0 hi,
   by decide⟩

/-- Witness for C5 at concrete inputs. -/
theorem c5_witness :
    ((moveBlock [exA, exB, exC] 0 2).map stripOrder).Perm
      ([exA, exB, exC].map stripOrder) ∧
    moveBlock [exA, exB, exC] 1 1 = [exA, exB, exC] :=
  ⟨c5_move_is_permutation.1 [exA, exB, exC] 0 2 (by decide) (by decide) (by decide) (by decide),
   c5_move_is_permutation.2.1 [exA, exB, exC] 1
     ((ordered_iff_map_order [exA, exB, exC]).mpr (by decide)) (by decide) (by decide)⟩

/-- Claim C6: duplicating a block B found at index n produces a sequence one
longer in which the clone sits immediately after B with identical type,
content and metadata, carries the freshly generated id (unique among the
existing ids by the generator contract, taken as the freshness hypothesis),
and every block's order equals its index again. -/
theorem c6_duplicate_block (blocks : List Block) (cid newId : String) (n : Nat) (B : Block)
    (hfind : blocks.findIdx? (fun b => b.id == some cid) = some n)
    (hB : blocks[n]? = some B)
    (hfresh : ∀ b ∈ blocks, b.id ≠ some newId) :
    (handleDuplicateBlock blocks cid newId).length = blocks.length + 1 ∧
    (handleDuplicateBlock blocks cid newId)[n + 1]?
      = some { B with id := some newId, order := (n : Int) + 1 } ∧
    (∀ b ∈ blocks, some newId ≠ b.id) ∧
    Ordered (handleDuplicateBlock blocks cid newId) := by
  have hn : n < blocks.length := (List.getElem?_eq_some.mp hB).1
  have e1 : handleDuplicateBlock blocks cid newId
      = renumber (blocks.take (n + 1)
          ++ [{ B with id := some newId, order := (n : Int) + 1 }]
          ++ blocks.drop (n + 1)) := by
    unfold handleDuplicateBlock
    simp only [hfind, hB]
  have hlt : (blocks.take (n + 1)).length = n + 1 := by
    rw [List.length_take]
    omega
  refine ⟨?_, ?_, fun b hb => Ne.symm (hfresh b hb), ?_⟩
  · rw [e1]
    unfold renumber
    rw [renumberJs_length, List.length_map, List.length_append, List.length_append,
      List.length_take, List.length_drop]
    simp only [List.length_cons, List.length_nil]
    omega
  · rw [e1]
    unfold renumber
    rw [renumberJs_getElem?, List.getElem?_map]
    rw [List.getElem?_append_left (by rw [List.length_append, hlt]; simp)]
    rw [List.getElem?_append_right (le_of_eq hlt), hlt]
    simp only [Nat.sub_self, List.getElem?_cons_zero, Option.map_some']
    have hcast : (0 : Int) + ((n + 1 : Nat) : Int) = (n : Int) + 1 := by
      push_cast
      ring
    rw [show jsSpreadOrder (some { B with id := some newId, order := (n : Int) + 1 })
        (0 + ((n + 1 : Nat) : Int))
      = { B with id := some newId, order := 0 + ((n + 1 : Nat) : Int) } from rfl, hcast]
  · rw [e1]
    exact ordered_renumberJs _

/-- Witness for C6 on a concrete two-block sequence. -/
theorem c6_witness :
    (handleDuplicateBlock [exA, exB] "a" "z").length = ([exA, exB] : List Block).length + 1 ∧
    (handleDuplicateBlock [exA, exB] "a" "z")[0 + 1]?
      = some { exA with id := some "z", order := ((0 : Nat) : Int) + 1 } ∧
    (∀ b ∈ ([exA, exB] : List Block), some "z" ≠ b.id) ∧
    Ordered (handleDuplicateBlock [exA, exB] "a" "z") :=
  c6_duplicate_block [exA, exB] "a" "z" 0 exA (by decide) rfl (by decide)

/-! Helper lemmas for the sort performed by blocksToHtml. -/

theorem sortByOrder_sorted (l : List Block) :
    (sortByOrder l).Sorted (fun a b => a.order ≤ b.order) :=
  List.sorted_insertionSort _ l

theorem sortByOrder_perm (l : List Block) : (sortByOrder l).Perm l :=
  List.perm_insertionSort _ l

theorem sortByOrder_eq_of_perm (l1 l2 : List Block) (hperm : l1.Perm l2)
    (hdist : l1.Pairwise (fun a b => a.order ≠ b.order)) :
    sortByOrder l1 = sortByOrder l2 := by
  have hd1 : (sortByOrder l1).Pairwise (fun a b => a.order ≠ b.order) :=
    (List.Perm.pairwise_iff (fun h => Ne.symm h) (sortByOrder_perm l1)).mpr hdist
  have hdl2 : l2.Pairwise (fun a b => a.order ≠ b.order) :=
    (List.Perm.pairwise_iff (fun h => Ne.symm h) hperm).mp hdist
  have hd2 : (sortByOrder l2).Pairwise (fun a b => a.order ≠ b.order) :=
    (List.Perm.pairwise_iff (fun h => Ne.symm h) (sortByOrder_perm l2)).mpr hdl2
  have hs1 : (sortByOrder l1).Sorted (fun a b => a.order < b.order ∨ a = b) :=
    List.Pairwise.imp (fun h => Or.inl (lt_of_le_of_ne h.1 h.2))
      (List.Pairwise.and (sortByOrder_sorted l1) hd1)
  have hs2 : (sortByOrder l2).Sorted (fun a b => a.order < b.order ∨ a = b) :=
    List.Pairwise.imp (fun h => Or.inl (lt_of_le_of_ne h.1 h.2))
      (List.Pairwise.and (sortByOrder_sorted l2) hd2)
  have hp12 : (sortByOrder l1).Perm (sortByOrder l2) :=
    (sortByOrder_perm l1).trans (hperm.trans (sortByOrder_perm l2).symm)
  exact List.eq_of_perm_of_sorted hp12 hs1 hs2

/-- Claim C7: blocksToHtml first sorts by the order field, so on sequences
with pairwise distinct order values the output is invariant under
rearrangement of the array; the single paragraph block with content Hello
renders to exactly the expected paragraph markup, and the concrete task
block renders to a list item carrying a checked-true marker and its text. -/
theorem c7_blocksToHtml_render (l1 l2 : List Block) (hperm : l1.Perm l2)
    (hdist : l1.Pairwise (fun a b => a.order ≠ b.order)) :
    blocksToHtml l1 = blocksToHtml l2 ∧
    blocksToHtml [pHello] = "<p>Hello</p>" ∧
    blocksToHtml [taskMilk]
      = "<li data-type=\"taskItem\" data-checked=\"true\">Buy milk</li>" := by
  refine ⟨?_, by decide, by decide⟩
  unfold blocksToHtml
  rw [sortByOrder_eq_of_perm l1 l2 hperm hdist]

/-- Witness for C7 on a concrete rearranged pair. -/
theorem c7_witness :
    blocksToHtml [exA, exB] = blocksToHtml [exB, exA] ∧
    blocksToHtml [pHello] = "<p>Hello</p>" ∧
    blocksToHtml [taskMilk]
      = "<li data-type=\"taskItem\" data-checked=\"true\">Buy milk</li>" :=
  c7_blocksToHtml_render [exA, exB] [exB, exA] (by decide) (by decide)

/-! Helper lemmas about the markup-to-blocks conversion. -/

theorem htmlToBlocksGo_order (gen : Nat → String) :
    ∀ (nodes : List DomNode) (k i : Nat) (b : Block),
      (htmlToBlocksGo gen k nodes)[i]? = some b → b.order = (k : Int) + i := by
  intro nodes
  induction nodes with
  | nil => intro k i b h; simp [htmlToBlocksGo] at h
  | cons node rest ih =>
    intro k i b h
    cases node with
    | text s =>
      simp only [htmlToBlocksGo] at h
      by_cases hs : jsTrim s ≠ ""
      · rw [if_pos hs] at h
        cases i with
        | zero =>
          simp only [List.getElem?_cons_zero, Option.some_inj] at h
          rw [← h]
          simp
        | succ i =>
          simp only [List.getElem?_cons_succ] at h
          rw [ih (k + 1) i b h]
          push_cast
          ring
      · rw [if_neg hs] at h
        exact ih k i b h
    | element tagName innerHTML =>
      simp only [htmlToBlocksGo] at h
      cases i with
      | zero =>
        simp only [List.getElem?_cons_zero, Option.some_inj] at h
        rw [← h]
        simp
      | succ i =>
        simp only [List.getElem?_cons_succ] at h
        rw [ih (k + 1) i b h]
        push_cast
        ring
    | other =>
      simp only [htmlToBlocksGo] at h
      exact ih k i b h

theorem htmlToBlocksGo_shape (gen : Nat → String) :
    ∀ (nodes : List DomNode) (k : Nat) (b : Block), b ∈ htmlToBlocksGo gen k nodes →
      (∃ s, DomNode.text s ∈ nodes ∧ jsTrim s ≠ "" ∧
        b.type = some BlockType.paragraph ∧ b.content = some s) ∨
      (∃ tagName innerHTML, DomNode.element tagName innerHTML ∈ nodes ∧
        b.type = some (tagToType tagName) ∧ b.content = some innerHTML) := by
  intro nodes
  induction nodes with
  | nil => intro k b h; simp [htmlToBlocksGo] at h
  | cons node rest ih =>
    intro k b h
    cases node with
    | text s =>
      simp only [htmlToBlocksGo] at h
      by_cases hs : jsTrim s ≠ ""
      · rw [if_pos hs] at h
        rcases List.mem_cons.mp h with h0 | h1
        · exact Or.inl ⟨s, List.mem_cons_self _ _, hs, by rw [h0], by rw [h0]⟩
        · rcases ih (k + 1) b h1 with ⟨s2, hmem, h3, h4, h5⟩ | ⟨tg, im, hmem, h4, h5⟩
          · exact Or.inl ⟨s2, List.mem_cons_of_mem _ hmem, h3, h4, h5⟩
          · exact Or.inr ⟨tg, im, List.mem_cons_of_mem _ hmem, h4, h5⟩
      · rw [if_neg hs] at h
        rcases ih k b h with ⟨s2, hmem, h3, h4, h5⟩ | ⟨tg, im, hmem, h4, h5⟩
        · exact Or.inl ⟨s2, List.mem_cons_of_mem _ hmem, h3, h4, h5⟩
        · exact Or.inr ⟨tg, im, List.mem_cons_of_mem _ hmem, h4, h5⟩
    | element tagName innerHTML =>
      simp only [htmlToBlocksGo] at h
      rcases List.mem_cons.mp h with h0 | h1
      · exact Or.inr ⟨tagName, innerHTML, List.mem_cons_self _ _, by rw [h0], by rw [h0]⟩
      · rcases ih (k + 1) b h1 with ⟨s2, hmem, h3, h4, h5⟩ | ⟨tg, im, hmem, h4, h5⟩
        · exact Or.inl ⟨s2, List.mem_cons_of_mem _ hmem, h3, h4, h5⟩
        · exact Or.inr ⟨tg, im, List.mem_cons_of_mem _ hmem, h4, h5⟩
    | other =>
      simp only [htmlToBlocksGo] at h
      rcases ih k b h with ⟨s2, hmem, h3, h4, h5⟩ | ⟨tg, im, hmem, h4, h5⟩
      · exact Or.inl ⟨s2, List.mem_cons_of_mem _ hmem, h3, h4, h5⟩
      · exact Or.inr ⟨tg, im, List.mem_cons_of_mem _ hmem, h4, h5⟩

theorem tagToType_cases (tagName : String) :
    tagToType tagName = BlockType.paragraph ∨ tagToType tagName = BlockType.heading1 ∨
    tagToType tagName = BlockType.heading2 ∨ tagToType tagName = BlockType.heading3 ∨
    tagToType tagName = BlockType.quote ∨ tagToType tagName = BlockType.code ∨
    tagToType tagName = BlockType.divider ∨ tagToType tagName = BlockType.bulletList ∨
    tagToType tagName = BlockType.numberedList := by
  unfold tagToType
  split <;> simp

/-- Claim C8: htmlToBlocks assigns orders sequentially from 0 in document
order; every produced block comes from a top-level node, with element nodes
mapped to a BlockType by tag name and their inner markup as content, and
non-blank text nodes becoming paragraphs holding the raw text; consequently
every produced block's type lies in the nine-type subset, and the tag table
is the one stated (with every unrecognised tag defaulting to paragraph). -/
theorem c8_htmlToBlocks_mapping (gen : Nat → String) (nodes : List DomNode) :
    (∀ (i : Nat) (b : Block), (htmlToBlocks gen nodes)[i]? = some b → b.order = (i : Int)) ∧
    (∀ b ∈ htmlToBlocks gen nodes,
      (∃ s, DomNode.text s ∈ nodes ∧ jsTrim s ≠ "" ∧
        b.type = some BlockType.paragraph ∧ b.content = some s) ∨
      (∃ tagName innerHTML, DomNode.element tagName innerHTML ∈ nodes ∧
        b.type = some (tagToType tagName) ∧ b.content = some innerHTML)) ∧
    (∀ b ∈ htmlToBlocks gen nodes,
      b.type = some BlockType.paragraph ∨ b.type = some BlockType.heading1 ∨
      b.type = some BlockType.heading2 ∨ b.type = some BlockType.heading3 ∨
      b.type = some BlockType.quote ∨ b.type = some BlockType.code ∨
      b.type = some BlockType.divider ∨ b.type = some BlockType.bulletList ∨
      b.type = some BlockType.numberedList) ∧
    (tagToType "h1" = BlockType.heading1 ∧ tagToType "h2" = BlockType.heading2 ∧
     tagToType "h3" = BlockType.heading3 ∧ tagToType "blockquote" = BlockType.quote ∧
     tagToType "pre" = BlockType.code ∧ tagToType "hr" = BlockType.divider ∧
     tagToType "ul" = BlockType.bulletList ∧ tagToType "ol" = BlockType.numberedList ∧
     tagToType "div" = BlockType.paragraph) := by
  refine ⟨?_, ?_, ?_, ?_⟩
  · intro i b h
    rw [htmlToBlocksGo_order gen nodes 0 i b h]
    simp
  · exact fun b hb => htmlToBlocksGo_shape gen nodes 0 b hb
  · intro b hb
    rcases htmlToBlocksGo_shape gen nodes 0 b hb with ⟨s, _, _, h4, _⟩ | ⟨tg, im, _, h4, _⟩
    · exact Or.inl h4
    · rcases tagToType_cases tg with h | h | h | h | h | h | h | h | h <;> rw [h4, h] <;> tauto
  · exact ⟨by decide, by decide, by decide, by decide, by decide, by decide, by decide,
      by decide, by decide⟩

/-- Witness for C8 at a concrete node list. -/
theorem c8_witness :
    c8blk.order = ((1 : Nat) : Int) ∧
    ((∃ s, DomNode.text s ∈ c8nodes ∧ jsTrim s ≠ "" ∧
        c8blk.type = some BlockType.paragraph ∧ c8blk.content = some s) ∨
      (∃ tagName innerHTML, DomNode.element tagName innerHTML ∈ c8nodes ∧
        c8blk.type = some (tagToType tagName) ∧ c8blk.content = some innerHTML)) ∧
    tagToType "h1" = BlockType.heading1 :=
  ⟨(c8_htmlToBlocks_mapping c8gen c8nodes).1 1 c8blk (by decide),
   (c8_htmlToBlocks_mapping c8gen c8nodes).2.1 c8blk (by decide),
   (c8_htmlToBlocks_mapping c8gen c8nodes).2.2.2.1⟩

end Blocks
